import Mathlib

/-!
Shallow embedding of the prime-search core of `img2prime.py` and proofs of
properties of it.

Conventions of the embedding:
* Python big integers become `Nat`; `pow(a, d, n)` becomes `a ^ d % n`.
* The process-wide random source is made explicit: `miller_rabin` receives the
  list of bases that `random.randint(2, n - 2)` would draw, one per round
  (the source's round count `k` is the length of that list).
* Unbounded `while` loops are modelled with a fuel parameter; a fuel large
  enough for the loop to finish reproduces the source behaviour exactly.
* Fallible results become `Option`: `none` models Python's `None`.
-/

namespace Img2prime

/-- The compiled-in small prime list of `probably_prime` (primes up to 997). -/
def smallPrimes : List Nat :=
  [2, 3, 5, 7, 11, 13, 17, 19, 23, 29, 31, 37, 41, 43, 47, 53, 59, 61,
   67, 71, 73, 79, 83, 89, 97, 101, 103, 107, 109, 113, 127, 131, 137,
   139, 149, 151, 157, 163, 167, 173, 179, 181, 191, 193, 197, 199, 211,
   223, 227, 229, 233, 239, 241, 251, 257, 263, 269, 271, 277, 281, 283,
   293, 307, 311, 313, 317, 331, 337, 347, 349, 353, 359, 367, 373, 379,
   383, 389, 397, 401, 409, 419, 421, 431, 433, 439, 443, 449, 457, 461,
   463, 467, 479, 487, 491, 499, 503, 509, 521, 523, 541, 547, 557, 563,
   569, 571, 577, 587, 593, 599, 601, 607, 613, 617, 619, 631, 641, 643,
   647, 653, 659, 661, 673, 677, 683, 691, 701, 709, 719, 727, 733, 739,
   743, 751, 757, 761, 769, 773, 787, 797, 809, 811, 821, 823, 827, 829,
   839, 853, 857, 859, 863, 877, 881, 883, 887, 907, 911, 919, 929, 937,
   941, 947, 953, 967, 971, 977, 983, 991, 997]

/-- The trial-division loop of `probably_prime`:
`for prime in primes: if number % prime == 0: return False`.
Returns `true` when the loop rejects `number` (some listed prime divides it). -/
def trialDivision : List Nat → Nat → Bool
  | [], _ => false
  | p :: ps, number => if number % p = 0 then true else trialDivision ps number

/-- The `while d % 2 == 0: d //= 2; r *= 2` loop of `miller_rabin`, with fuel.
Any fuel of at least `d` halving steps reproduces the source loop (note the
source multiplies `r`, it does not count the halvings).  For `d = 0` the
source loop never terminates; that needs `n <= 1` and never arises here. -/
def stripTwos : Nat → Nat → Nat → Nat × Nat
  | 0, d, r => (d, r)
  | fuel + 1, d, r => if d % 2 = 0 then stripTwos fuel (d / 2) (r * 2) else (d, r)

/-- The inner `for j in range(cnt)` squaring loop of one Miller-Rabin round,
followed by the unconditional `return False` after the loop.  The source's
`if x == n - 1: continue` moves to the next `j`, which is what the loop does
anyway, so both branches recurse identically; and when the loop runs out of
iterations the source falls through to `return False`. -/
def mrSquareLoop (n : Nat) : Nat → Nat → Bool
  | _, 0 => false
  | x, cnt + 1 =>
    if x ^ 2 % n = 1 then false
    else
      if x ^ 2 % n = n - 1 then mrSquareLoop n (x ^ 2 % n) cnt
      else mrSquareLoop n (x ^ 2 % n) cnt

/-- One round of the source's `miller_rabin` at base `a`:
`x = pow(a, d, n); if x == 1 or x == n - 1: continue` (round passes),
otherwise the squaring loop runs and ends in `return False`. -/
def mrRound (n d r a : Nat) : Bool :=
  if a ^ d % n = 1 ∨ a ^ d % n = n - 1 then true
  else mrSquareLoop n (a ^ d % n) (r - 1)

/-- The `for i in range(k)` loop of `miller_rabin`: each round draws one base;
a failing round is the source's `return False`, surviving all rounds is
`return True`. -/
def mrRounds (n d r : Nat) : List Nat → Bool
  | [] => true
  | a :: rest => if mrRound n d r a then mrRounds n d r rest else false

/-- `miller_rabin(n, k)` with the `k` random draws made explicit as `bases`.
`r = 1; d = (n - 1) // 2` then the halving loop, then the rounds. -/
def miller_rabin (n : Nat) (bases : List Nat) : Bool :=
  mrRounds n (stripTwos ((n - 1) / 2) ((n - 1) / 2) 1).1
    (stripTwos ((n - 1) / 2) ((n - 1) / 2) 1).2 bases

/-- `probably_prime(number)`: trial division against `smallPrimes`, then
Miller-Rabin.  `bases` are the random draws the Miller-Rabin call would use. -/
def probably_prime (bases : List Nat) (number : Nat) : Bool :=
  if trialDivision smallPrimes number then false else miller_rabin number bases

/-- `find_next_prime(number)`: test `number`, `number + 2`, `number + 4`, ...
until `test` accepts; the unbounded `while` is modelled with fuel (`none` when
the fuel runs out first).  The second component records every candidate passed
to `test`, in order. -/
def find_next_prime (test : Nat → Bool) : Nat → Nat → Option Nat × List Nat
  | 0, _ => (none, [])
  | fuel + 1, number =>
    if test number then (some number, [number])
    else
      ((find_next_prime test fuel (number + 2)).1,
        number :: (find_next_prime test fuel (number + 2)).2)

/-- One call of the closure returned by `skipahead`: with `skipped` calls seen
so far, a call below the threshold returns `False` without touching the
wrapped test and bumps the counter; otherwise it delegates.  The result is
(returned value, new counter, number of wrapped-test invocations this call). -/
def skipahead_step (skip : Nat) (test : Nat → Bool) (skipped number : Nat) :
    Bool × Nat × Nat :=
  if skipped < skip then (false, skipped + 1, 0) else (test number, skipped, 1)

/-- A sequence of calls to the `skipahead` closure starting from counter
`skipped`, returning for each call its result and how often the wrapped test
was invoked during it. -/
def skipahead_run (skip : Nat) (test : Nat → Bool) :
    Nat → List Nat → List (Bool × Nat)
  | _, [] => []
  | skipped, number :: rest =>
    ((skipahead_step skip test skipped number).1,
      (skipahead_step skip test skipped number).2.2) ::
      skipahead_run skip test (skipahead_step skip test skipped number).2.1 rest

/-- The Python index `-index` into a list of length `L`, as used by
`digits[-index]` and `morphed[-index] = morph` in the morph search.  For
`index = 0` Python's `-0` is `0`, the front (most significant) element; for
`1 <= index < L` it is element `L - index`. -/
def pyIdx (L index : Nat) : Nat := if index = 0 then 0 else L - index

/-- Python `int(morphed)` on a digit string: leading zeros contribute nothing
to the value. -/
def digitsToNat (ds : List Nat) : Nat := ds.foldl (fun acc d => 10 * acc + d) 0

/-- Decimal digits of `n`, most significant first, with fuel (the source's
`list(str(number))`).  Fuel `n` always suffices since the argument is divided
by 10 while at least 10. -/
def natDigitsAux : Nat → Nat → List Nat
  | 0, n => [n]
  | fuel + 1, n => if n < 10 then [n] else natDigitsAux fuel (n / 10) ++ [n % 10]

/-- Decimal digit string of `n`, most significant first: Python `str(number)`
for a nonnegative integer. -/
def natDigits (n : Nat) : List Nat := natDigitsAux n n

/-- One observation of the instrumented morph search: the digit string of the
call that built the candidate, that call's `recursion_depth`, and the
candidate digit string passed to the test. -/
abbrev MorphStep : Type := List Nat × Nat × List Nat

/-- The `for morph in morphs[digit]` loop of `find_prime_by_morphing_recursive`
over the remaining replacement digits `ms`, instrumented with the list of
tested candidates.  `digits` is the call's current string, `L` its length,
`index` the loop position, `D` the call's `recursion_depth`, and `recur` the
recursive call at depth `index` (`none` = out of fuel).  For each morph:
build `morphed`, test it (`return int(morphed)` on success), otherwise recurse
on the morphed string; a truthy child result (Python: not `None` and not `0`)
is returned, otherwise the loop continues. -/
def morphInnerT (test : Nat → Bool)
    (recur : List Nat → Option (Option Nat × List MorphStep))
    (L D index : Nat) (digits : List Nat) :
    List Nat → Option (Option Nat × List MorphStep)
  | [] => some (none, [])
  | m :: ms =>
    let morphed := digits.set (pyIdx L index) m
    if test (digitsToNat morphed) then
      some (some (digitsToNat morphed), [(digits, D, morphed)])
    else
      match recur morphed with
      | none => none
      | some (some p, tr) =>
        if p = 0 then
          match morphInnerT test recur L D index digits ms with
          | none => none
          | some out2 => some (out2.1, (digits, D, morphed) :: tr ++ out2.2)
        else some (some p, (digits, D, morphed) :: tr)
      | some (none, tr) =>
        match morphInnerT test recur L D index digits ms with
        | none => none
        | some out2 => some (out2.1, (digits, D, morphed) :: tr ++ out2.2)

/-- The `for index in range(len(digits))` loop of
`find_prime_by_morphing_recursive` over the remaining loop indices `idxs`.
`if index >= recursion_depth: break` ends the call (returning Python `None`);
a `KeyError` on `morphs[digit]` skips the position; a value returned inside
the inner loop propagates out; otherwise the loop moves on, and falling off
the loop returns `None`.  `recurAt index` is the recursive call with
`recursion_depth = index`. -/
def morphOuterT (table : Nat → Option (List Nat)) (test : Nat → Bool)
    (recurAt : Nat → List Nat → Option (Option Nat × List MorphStep))
    (D : Nat) (digits : List Nat) :
    List Nat → Option (Option Nat × List MorphStep)
  | [] => some (none, [])
  | index :: rest =>
    if index < D then
      match table (digits.getD (pyIdx digits.length index) 0) with
      | none => morphOuterT table test recurAt D digits rest
      | some ms =>
        match morphInnerT test (recurAt index) digits.length D index digits ms with
        | none => none
        | some (some p, tr) => some (some p, tr)
        | some (none, tr) =>
          match morphOuterT table test recurAt D digits rest with
          | none => none
          | some out2 => some (out2.1, tr ++ out2.2)
    else some (none, [])

/-- `find_prime_by_morphing_recursive(number, recursion_depth)` with fuel on
the call depth (`none` = out of fuel; fuel `D + 1` always suffices, proved
below), instrumented with the list of tested candidates in test order. -/
def morphRecT (table : Nat → Option (List Nat)) (test : Nat → Bool) :
    Nat → Nat → List Nat → Option (Option Nat × List MorphStep)
  | 0, _, _ => none
  | fuel + 1, D, digits =>
    morphOuterT table test (fun i ds => morphRecT table test fuel i ds) D digits
      (List.range digits.length)

/-- `find_prime_by_morphing(number)`: run the recursive search on the digit
string of `number` with initial `recursion_depth = len(str(number))`.
`table` is the morph dictionary (`none` = key absent), `test` the test
function. -/
def find_prime_by_morphing (table : Nat → Option (List Nat))
    (test : Nat → Bool) (number : Nat) : Option Nat :=
  ((morphRecT table test ((natDigits number).length + 1)
      (natDigits number).length (natDigits number)).getD (none, [])).1

/-- The candidates tested during `find_prime_by_morphing(number)`, each with
the digit string and depth of the call that tested it. -/
def morphTrace (table : Nat → Option (List Nat))
    (test : Nat → Bool) (number : Nat) : List MorphStep :=
  ((morphRecT table test ((natDigits number).length + 1)
      (natDigits number).length (natDigits number)).getD (none, [])).2

/-- Positions (0-based from the most significant digit) where two digit
strings differ. -/
def diffPositions (b c : List Nat) : List Nat :=
  (List.range b.length).filter (fun j => b.getD j 0 != c.getD j 0)

/-- A result of the recursive morph search is either Python `None` or a value
that the test function accepted. -/
def resOK (test : Nat → Bool) (r : Option Nat) : Prop :=
  r = none ∨ ∃ p, r = some p ∧ test p = true

/-- Shape of every tested candidate: the testing call's string has length `L`,
the candidate has length `L`, and the candidate is the call's string with the
single Python position `-i` replaced by a permitted morph of the digit that
was there, for some loop index `i` below the call's depth. -/
def elemOK (table : Nat → Option (List Nat)) (L : Nat) (e : MorphStep) : Prop :=
  e.1.length = L ∧ e.2.2.length = L ∧
    ∃ i ms m, i < e.2.1 ∧ i < e.1.length ∧
      table (e.1.getD (pyIdx e.1.length i) 0) = some ms ∧ m ∈ ms ∧
      e.2.2 = e.1.set (pyIdx e.1.length i) m

/-! Helper lemmas. -/

/-- The inner squaring loop of the source's Miller-Rabin can only end in
`return False`: it returns `False` when a square hits 1, and the statement
after the loop is `return False` as well (the `continue` on `x == n - 1`
merely moves to the next iteration). -/
lemma mrSquareLoop_false (n : Nat) : ∀ (cnt x : Nat), mrSquareLoop n x cnt = false := by
  intro cnt
  induction cnt with
  | zero => intro x; rfl
  | succ c ih =>
    intro x
    simp only [mrSquareLoop]
    split
    · rfl
    · split
      · exact ih _
      · exact ih _

/-- The trial-division loop rejects any number divisible by a listed prime. -/
lemma trialDivision_of_mem (n q : Nat) :
    ∀ l : List Nat, q ∈ l → n % q = 0 → trialDivision l n = true := by
  intro l
  induction l with
  | nil => intro hq; cases hq
  | cons a t ih =>
    intro hq hd
    simp only [trialDivision]
    by_cases h : n % a = 0
    · simp [h]
    · have hqt : q ∈ t := by
        rcases List.mem_cons.mp hq with h1 | h1
        · subst h1; exact absurd hd h
        · exact h1
      simp [h, ih hqt hd]

/-! Claim theorems. -/

/-- Claim C1 (code bug): 17 is an odd prime at least 5, yet `miller_rabin(17, k)`
returns `False` for every possible outcome of the random base choices in
`[2, n - 2] = [2, 15]` (with at least one round).  For n = 17 the odd
decomposition gives `d = 1` and `r = 8`, so `x = a ** 1 mod 17 = a` is never
1 or 16, and the squaring loop always falls through to `return False`:
a prime is reported composite, contradicting the claim that false negatives
never occur. -/
theorem miller_rabin_rejects_prime_17 :
    Nat.Prime 17 ∧ ∀ (bases : List Nat), bases ≠ [] →
      (∀ a ∈ bases, 2 ≤ a ∧ a ≤ 15) → miller_rabin 17 bases = false := by
  constructor
  · norm_num
  · intro bases hne hb
    cases bases with
    | nil => exact absurd rfl hne
    | cons a rest =>
      obtain ⟨ha2, ha15⟩ := hb a (List.mem_cons_self a rest)
      have hred : miller_rabin 17 (a :: rest) = mrRounds 17 1 8 (a :: rest) := rfl
      rw [hred]
      have hx : a ^ 1 % 17 = a := by
        rw [pow_one]; exact Nat.mod_eq_of_lt (by omega)
      have hround : mrRound 17 1 8 a = false := by
        simp only [mrRound]
        rw [if_neg (by rw [hx]; omega)]
        exact mrSquareLoop_false 17 (8 - 1) (a ^ 1 % 17)
      simp [mrRounds, hround]

/-- Witness for C1: the concrete base sequence 2, 2, ..., 2 (ten rounds, each
base in `[2, 15]`) makes `miller_rabin` report the prime 17 composite. -/
theorem miller_rabin_rejects_prime_17_witness :
    ([2, 2, 2, 2, 2, 2, 2, 2, 2, 2] : List Nat) ≠ [] ∧
      miller_rabin 17 [2, 2, 2, 2, 2, 2, 2, 2, 2, 2] = false :=
  ⟨by decide, miller_rabin_rejects_prime_17.2 _ (by decide) (by decide)⟩

set_option maxRecDepth 8000

/-- Claim C2 (code bug): every member `p` of the built-in small-prime list is
prime, yet `probably_prime(p)` returns `False` for it under every possible
random draw, because the trial-division loop finds `p % p == 0` and rejects:
the divisibility match against `p` itself is a false positive on a prime
input, contradicting the claim. -/
theorem probably_prime_rejects_listed_primes :
    ∀ p ∈ smallPrimes, Nat.Prime p ∧
      ∀ bases : List Nat, probably_prime bases p = false := by
  intro p hp
  constructor
  · have hall : ∀ q ∈ smallPrimes, 2 ≤ q ∧ q ≤ 997 ∧
        ∀ m, m < 32 → 2 ≤ m → m * m ≤ q → ¬ m ∣ q := by decide
    obtain ⟨h2, h997, hnd⟩ := hall p hp
    refine Nat.prime_def_le_sqrt.mpr ⟨h2, ?_⟩
    intro m hm2 hms
    have hmm : m * m ≤ p := Nat.le_sqrt.mp hms
    have hm32 : m < 32 := by
      by_contra hc
      push_neg at hc
      have h1024 : 32 * 32 ≤ m * m := Nat.mul_le_mul hc hc
      omega
    exact hnd m hm32 hm2 hmm
  · intro bases
    have hrej : trialDivision smallPrimes p = true :=
      trialDivision_of_mem p p smallPrimes hp (Nat.mod_self p)
    simp [probably_prime, hrej]

/-- Witness for C2: 997 is in the list and `probably_prime(997)` is `False`. -/
theorem probably_prime_rejects_listed_primes_witness :
    997 ∈ smallPrimes ∧ probably_prime [] 997 = false :=
  ⟨by decide, (probably_prime_rejects_listed_primes 997 (by decide)).2 []⟩

/-- The trial-division filter rejects 9 under every random draw (9 % 3 == 0). -/
lemma probably_prime_nine (bases : List Nat) : probably_prime bases 9 = false := by
  have h : trialDivision smallPrimes 9 = true := rfl
  simp [probably_prime, h]

/-- The trial-division filter rejects 11 under every random draw, because the
loop reaches the listed prime 11 and finds 11 % 11 == 0. -/
lemma probably_prime_eleven (bases : List Nat) : probably_prime bases 11 = false := by
  have h : trialDivision smallPrimes 11 = true := rfl
  simp [probably_prime, h]

/-- A value returned by `find_next_prime` is at least the starting number. -/
lemma find_next_prime_fst_ge (test : Nat → Bool) :
    ∀ (fuel n v : Nat), (find_next_prime test fuel n).1 = some v → n ≤ v := by
  intro fuel
  induction fuel with
  | zero => intro n v h; simp [find_next_prime] at h
  | succ f ih =>
    intro n v h
    cases ht : test n with
    | true =>
      simp [find_next_prime, ht] at h
      omega
    | false =>
      simp [find_next_prime, ht] at h
      have := ih (n + 2) v h
      omega

/-- Claim C3 (code bug): with any test function that behaves like the default
`probably_prime` (for each call, its verdict is `probably_prime` under some
sequence of ten random draws), `find_next_prime(9)` can never return 11, no
matter how long it runs: both 9 and 11 are rejected by the trial-division
filter (9 by 3, and 11 by itself), so the search moves past 11 and any later
result is at least 13. -/
theorem find_next_prime_nine_never_eleven :
    ∀ (test : Nat → Bool),
      (∀ n, ∃ bases : List Nat, bases.length = 10 ∧ test n = probably_prime bases n) →
      ∀ fuel, (find_next_prime test fuel 9).1 ≠ some 11 := by
  intro test htest fuel
  have h9 : test 9 = false := by
    obtain ⟨b, _, hb⟩ := htest 9
    rw [hb]; exact probably_prime_nine b
  have h11 : test 11 = false := by
    obtain ⟨b, _, hb⟩ := htest 11
    rw [hb]; exact probably_prime_eleven b
  cases fuel with
  | zero => simp [find_next_prime]
  | succ f =>
    have e1 : (find_next_prime test (f + 1) 9).1 = (find_next_prime test f 11).1 := by
      simp [find_next_prime, h9]
    rw [e1]
    cases f with
    | zero => simp [find_next_prime]
    | succ g =>
      have e2 : (find_next_prime test (g + 1) 11).1 = (find_next_prime test g 13).1 := by
        simp [find_next_prime, h11]
      rw [e2]
      intro hc
      have := find_next_prime_fst_ge test g 13 11 hc
      omega

/-- Witness for C3: a concrete conforming test function (always drawing base 2
ten times) and a concrete fuel for which the search result is not 11. -/
theorem find_next_prime_nine_never_eleven_witness :
    (∀ n, ∃ bases : List Nat, bases.length = 10 ∧
        probably_prime (List.replicate 10 2) n = probably_prime bases n) ∧
      (find_next_prime (fun n => probably_prime (List.replicate 10 2) n) 5 9).1 ≠
        some 11 :=
  ⟨fun _ => ⟨List.replicate 10 2, by simp, rfl⟩,
    find_next_prime_nine_never_eleven _
      (fun _ => ⟨List.replicate 10 2, by simp, rfl⟩) 5⟩

/-- Claim C6: the closure built by `skipahead` returns `False` on each of its
first `skip` invocations without invoking the wrapped test (0 inner calls),
and from invocation `skip + 1` on it returns exactly the wrapped test's
verdict, invoking it exactly once per call, permanently. -/
theorem skipahead_first_n_false_then_delegates :
    ∀ (skip : Nat) (test : Nat → Bool) (inputs : List Nat),
      skipahead_run skip test 0 inputs =
        (inputs.take skip).map (fun _ => (false, 0)) ++
          (inputs.drop skip).map (fun x => (test x, 1)) := by
  have general : ∀ (skip : Nat) (test : Nat → Bool) (inputs : List Nat) (s : Nat),
      s ≤ skip →
      skipahead_run skip test s inputs =
        (inputs.take (skip - s)).map (fun _ => (false, 0)) ++
          (inputs.drop (skip - s)).map (fun x => (test x, 1)) := by
    intro skip test inputs
    induction inputs with
    | nil => intro s _; simp [skipahead_run]
    | cons x t ih =>
      intro s hs
      by_cases h : s < skip
      · obtain ⟨k, hk⟩ : ∃ k, skip - s = k + 1 := ⟨skip - s - 1, by omega⟩
        have hk2 : skip - (s + 1) = k := by omega
        simp only [skipahead_run, skipahead_step, if_pos h]
        rw [ih (s + 1) (by omega), hk, hk2]
        simp
      · have h0 : skip - s = 0 := by omega
        simp only [skipahead_run, skipahead_step, if_neg h]
        rw [ih s hs, h0]
        simp
  intro skip test inputs
  have h := general skip test inputs 0 (Nat.zero_le skip)
  simpa using h

/-- Claim C7: if `start + 2 * k` is the first element of the progression
`start, start + 2, start + 4, ...` that the test accepts, then
`find_next_prime` (given fuel to reach it) returns exactly that element and
has invoked the test exactly on `start, start + 2, ..., start + 2 * k`, in
increasing order. -/
theorem find_next_prime_first_accepted :
    ∀ (test : Nat → Bool) (start k : Nat),
      (∀ j, j < k → test (start + 2 * j) = false) →
      test (start + 2 * k) = true →
      ∀ fuel, k < fuel →
        find_next_prime test fuel start =
          (some (start + 2 * k), (List.range (k + 1)).map (fun j => start + 2 * j)) := by
  intro test start k
  induction k generalizing start with
  | zero =>
    intro _ hacc fuel hfuel
    match fuel, hfuel with
    | f + 1, _ =>
      have ht : test start = true := by simpa using hacc
      simp [find_next_prime, ht, List.range_succ]
  | succ k ih =>
    intro hbefore hacc fuel hfuel
    match fuel, hfuel with
    | f + 1, hfuel =>
      have h0 : test start = false := by simpa using hbefore 0 (by omega)
      have hrec := ih (start + 2)
        (fun j hj => by
          have h := hbefore (j + 1) (by omega)
          have harith : start + 2 * (j + 1) = start + 2 + 2 * j := by ring
          rwa [harith] at h)
        (by
          have harith : start + 2 * (k + 1) = start + 2 + 2 * k := by ring
          rwa [harith] at hacc)
        f (by omega)
      simp only [find_next_prime, h0, Bool.false_eq_true, if_false]
      rw [hrec]
      have hfun : (fun j => start + 2 + 2 * j) = ((fun j => start + 2 * j) ∘ Nat.succ) := by
        funext j
        simp only [Function.comp, Nat.succ_eq_add_one]
        ring
      have harith2 : start + 2 + 2 * k = start + 2 * (k + 1) := by ring
      rw [List.range_succ_eq_map (k + 1), List.map_cons, List.map_map, ← hfun, harith2]
      simp

/-- Witness for C7: with the test accepting exactly 13, the search from 9
returns 13 having tested 9, 11, 13 in order. -/
theorem find_next_prime_first_accepted_witness :
    find_next_prime (fun n => decide (n = 13)) 3 9 =
      (some (9 + 2 * 2), (List.range (2 + 1)).map (fun j => 9 + 2 * j)) :=
  find_next_prime_first_accepted (fun n => decide (n = 13)) 9 2
    (by decide) (by decide) 3 (by decide)

/-- Claim C10: every candidate `find_next_prime` passes to the test, and any
value it returns, is congruent to the starting value modulo 2: the step is
always `+ 2` and an even seed is never adjusted to odd. -/
theorem find_next_prime_preserves_parity :
    ∀ (test : Nat → Bool) (fuel start : Nat),
      (∀ c ∈ (find_next_prime test fuel start).2, c % 2 = start % 2) ∧
      (∀ v, (find_next_prime test fuel start).1 = some v → v % 2 = start % 2) := by
  intro test fuel
  induction fuel with
  | zero =>
    intro start
    constructor
    · intro c hc; simp [find_next_prime] at hc
    · intro v hv; simp [find_next_prime] at hv
  | succ f ih =>
    intro start
    cases ht : test start with
    | true =>
      constructor
      · intro c hc
        simp [find_next_prime, ht] at hc
        omega
      · intro v hv
        simp [find_next_prime, ht] at hv
        omega
    | false =>
      constructor
      · intro c hc
        simp [find_next_prime, ht] at hc
        rcases hc with hc | hc
        · omega
        · have := (ih (start + 2)).1 c hc
          omega
      · intro v hv
        simp [find_next_prime, ht] at hv
        have := (ih (start + 2)).2 v hv
        omega

/-- Witness for C10: from the even seed 8 with a test accepting at 10, the
returned value 10 has the seed's parity. -/
theorem find_next_prime_preserves_parity_witness : 10 % 2 = 8 % 2 :=
  (find_next_prime_preserves_parity (fun n => decide (10 ≤ n)) 2 8).2 10 (by decide)

/-- Soundness of the inner morph loop: given a recursive call that never runs
out of fuel, returns test-accepted values only, and traces well-shaped
candidates, the loop does too.  `ms` is the not-yet-processed tail of the
table entry `ms0` for the digit at loop position `index`. -/
lemma morphInnerT_sound (table : Nat → Option (List Nat)) (test : Nat → Bool)
    (recur : List Nat → Option (Option Nat × List MorphStep))
    (D index : Nat) (digits : List Nat) (ms0 : List Nat)
    (hiD : index < D) (hiL : index < digits.length)
    (htab : table (digits.getD (pyIdx digits.length index) 0) = some ms0)
    (hrec : ∀ ds, ds.length = digits.length →
      ∃ out, recur ds = some out ∧ resOK test out.1 ∧
        ∀ e ∈ out.2, elemOK table digits.length e) :
    ∀ ms, (∀ m ∈ ms, m ∈ ms0) →
      ∃ out, morphInnerT test recur digits.length D index digits ms = some out ∧
        resOK test out.1 ∧ ∀ e ∈ out.2, elemOK table digits.length e := by
  intro ms
  induction ms with
  | nil =>
    intro _
    exact ⟨(none, []), rfl, Or.inl rfl, fun e he => by simp at he⟩
  | cons m ms ih =>
    intro hsub
    have hm0 : m ∈ ms0 := hsub m (List.mem_cons_self m ms)
    have hsub2 : ∀ x ∈ ms, x ∈ ms0 := fun x hx => hsub x (List.mem_cons_of_mem m hx)
    have hlen : (digits.set (pyIdx digits.length index) m).length = digits.length := by
      simp
    have helem : elemOK table digits.length
        (digits, D, digits.set (pyIdx digits.length index) m) :=
      ⟨rfl, hlen, index, ms0, m, hiD, hiL, htab, hm0, rfl⟩
    cases ht : test (digitsToNat (digits.set (pyIdx digits.length index) m)) with
    | true =>
      refine ⟨(some (digitsToNat (digits.set (pyIdx digits.length index) m)),
        [(digits, D, digits.set (pyIdx digits.length index) m)]), ?_, ?_, ?_⟩
      · simp [morphInnerT, ht]
      · exact Or.inr ⟨_, rfl, ht⟩
      · intro e he
        simp at he
        rw [he]
        exact helem
    | false =>
      obtain ⟨⟨r0, tr0⟩, hout0, hres0, helems0⟩ :=
        hrec (digits.set (pyIdx digits.length index) m) hlen
      cases r0 with
      | none =>
        obtain ⟨out2, hout2, hres2, helems2⟩ := ih hsub2
        refine ⟨(out2.1,
          (digits, D, digits.set (pyIdx digits.length index) m) :: tr0 ++ out2.2),
          ?_, hres2, ?_⟩
        · simp [morphInnerT, ht, hout0, hout2]
        · intro e he
          rcases List.mem_cons.mp he with he | he
          · rw [he]; exact helem
          · rcases List.mem_append.mp he with he | he
            · exact helems0 e he
            · exact helems2 e he
      | some p =>
        by_cases hp : p = 0
        · subst hp
          obtain ⟨out2, hout2, hres2, helems2⟩ := ih hsub2
          refine ⟨(out2.1,
            (digits, D, digits.set (pyIdx digits.length index) m) :: tr0 ++ out2.2),
            ?_, hres2, ?_⟩
          · simp [morphInnerT, ht, hout0, hout2]
          · intro e he
            rcases List.mem_cons.mp he with he | he
            · rw [he]; exact helem
            · rcases List.mem_append.mp he with he | he
              · exact helems0 e he
              · exact helems2 e he
        · refine ⟨(some p,
            (digits, D, digits.set (pyIdx digits.length index) m) :: tr0), ?_, ?_, ?_⟩
          · simp [morphInnerT, ht, hout0, hp]
          · rcases hres0 with h | ⟨q, hq, hqt⟩
            · exact absurd h (by simp)
            · exact Or.inr ⟨p, rfl, by rw [Option.some.inj hq]; exact hqt⟩
          · intro e he
            rcases List.mem_cons.mp he with he | he
            · rw [he]; exact helem
            · exact helems0 e he

/-- Soundness of the outer position loop of one recursive call, under the same
assumptions on the recursive calls it may make at depths below `D`. -/
lemma morphOuterT_sound (table : Nat → Option (List Nat)) (test : Nat → Bool)
    (recurAt : Nat → List Nat → Option (Option Nat × List MorphStep))
    (D : Nat) (digits : List Nat)
    (hrecAt : ∀ i ds, i < D → ds.length = digits.length →
      ∃ out, recurAt i ds = some out ∧ resOK test out.1 ∧
        ∀ e ∈ out.2, elemOK table digits.length e) :
    ∀ idxs, (∀ i ∈ idxs, i < digits.length) →
      ∃ out, morphOuterT table test recurAt D digits idxs = some out ∧
        resOK test out.1 ∧ ∀ e ∈ out.2, elemOK table digits.length e := by
  intro idxs
  induction idxs with
  | nil => exact fun _ => ⟨(none, []), rfl, Or.inl rfl, fun e he => by simp at he⟩
  | cons index rest ih =>
    intro hidx
    have hiL : index < digits.length := hidx index (List.mem_cons_self index rest)
    have hrest : ∀ i ∈ rest, i < digits.length :=
      fun i hi => hidx i (List.mem_cons_of_mem index hi)
    by_cases hiD : index < D
    · cases htab : table (digits.getD (pyIdx digits.length index) 0) with
      | none =>
        obtain ⟨out2, h2, hres2, helems2⟩ := ih hrest
        refine ⟨out2, ?_, hres2, helems2⟩
        simp only [morphOuterT]
        rw [if_pos hiD]
        simp only [htab, h2]
      | some ms0 =>
        obtain ⟨⟨r1, tr1⟩, h1, hres1, helems1⟩ :=
          morphInnerT_sound table test (recurAt index) D index digits ms0 hiD hiL htab
            (fun ds hds => hrecAt index ds hiD hds) ms0 (fun m hm => hm)
        cases r1 with
        | some p =>
          refine ⟨(some p, tr1), ?_, hres1, helems1⟩
          simp only [morphOuterT]
          rw [if_pos hiD]
          simp only [htab, h1]
        | none =>
          obtain ⟨out2, h2, hres2, helems2⟩ := ih hrest
          refine ⟨(out2.1, tr1 ++ out2.2), ?_, hres2, ?_⟩
          · simp only [morphOuterT]
            rw [if_pos hiD]
            simp only [htab, h1, h2]
          · intro e he
            rcases List.mem_append.mp he with he | he
            · exact helems1 e he
            · exact helems2 e he
    · refine ⟨(none, []), ?_, Or.inl rfl, fun e he => by simp at he⟩
      simp only [morphOuterT]
      rw [if_neg hiD]

/-- The recursive morph search never exhausts a fuel larger than its depth
bound (each recursive call strictly decreases the bound), returns only
test-accepted values, and every candidate it tests is its testing call's
string with one in-window position replaced by a permitted morph. -/
lemma morphRecT_sound (table : Nat → Option (List Nat)) (test : Nat → Bool) :
    ∀ (fuel D : Nat) (digits : List Nat), D < fuel →
      ∃ out, morphRecT table test fuel D digits = some out ∧
        resOK test out.1 ∧ ∀ e ∈ out.2, elemOK table digits.length e := by
  intro fuel
  induction fuel with
  | zero => intro D digits h; exact absurd h (Nat.not_lt_zero D)
  | succ f ih =>
    intro D digits hD
    have hrecAt : ∀ i ds, i < D → ds.length = digits.length →
        ∃ out, morphRecT table test f i ds = some out ∧ resOK test out.1 ∧
          ∀ e ∈ out.2, elemOK table digits.length e := by
      intro i ds hi hds
      obtain ⟨out, hout, hres, helems⟩ := ih i ds (by omega)
      refine ⟨out, hout, hres, ?_⟩
      intro e he
      have h := helems e he
      rwa [hds] at h
    obtain ⟨out, hout, hres, helems⟩ :=
      morphOuterT_sound table test (fun i ds => morphRecT table test f i ds) D digits
        hrecAt (List.range digits.length) (fun i hi => List.mem_range.mp hi)
    exact ⟨out, hout, hres, helems⟩

/-- Claim C9: the depth-bounded recursion of `find_prime_by_morphing` always
exhausts -- fuel one larger than the initial depth bound never runs out,
because every recursive call's depth bound (the current position index) is
strictly below its caller's -- and the search returns either the absent
result (`None`) or a candidate accepted by the test function. -/
theorem find_prime_by_morphing_terminates :
    ∀ (table : Nat → Option (List Nat)) (test : Nat → Bool) (number : Nat),
      morphRecT table test ((natDigits number).length + 1) (natDigits number).length
          (natDigits number) =
        some (find_prime_by_morphing table test number, morphTrace table test number) ∧
      (find_prime_by_morphing table test number = none ∨
        ∃ p, find_prime_by_morphing table test number = some p ∧ test p = true) := by
  intro table test number
  obtain ⟨out, hout, hres, _⟩ :=
    morphRecT_sound table test ((natDigits number).length + 1)
      (natDigits number).length (natDigits number) (by omega)
  have h1 : find_prime_by_morphing table test number = out.1 := by
    simp [find_prime_by_morphing, hout]
  have h2 : morphTrace table test number = out.2 := by
    simp [morphTrace, hout]
  refine ⟨?_, ?_⟩
  · rw [h1, h2, hout]
  · rcases hres with h | ⟨p, hp, hpt⟩
    · exact Or.inl (by rw [h1, h])
    · exact Or.inr ⟨p, by rw [h1, hp], hpt⟩

/-- Claim C4: every digit string tested anywhere during
`find_prime_by_morphing` has exactly the length of the starting digit string,
and so does the string of the call that tested it: the recursion passes the
morphed digit string along unshortened, so leading zeros are never collapsed
away. -/
theorem morph_candidates_preserve_length :
    ∀ (table : Nat → Option (List Nat)) (test : Nat → Bool) (number : Nat)
      (e : MorphStep), e ∈ morphTrace table test number →
        e.1.length = (natDigits number).length ∧
        e.2.2.length = (natDigits number).length := by
  intro table test number e he
  obtain ⟨out, hout, _, helems⟩ :=
    morphRecT_sound table test ((natDigits number).length + 1)
      (natDigits number).length (natDigits number) (by omega)
  have h2 : morphTrace table test number = out.2 := by
    simp [morphTrace, hout]
  rw [h2] at he
  obtain ⟨ha, hb, _⟩ := helems e he
  exact ⟨ha, hb⟩

/-- Witness for C4: in the search from 13 with morph table 1 -> 4 and an
always-false test, the candidate 43 tested by the top-level call has the
start string's length. -/
theorem morph_candidates_preserve_length_witness :
    (([1, 3], 2, [4, 3]) : MorphStep) ∈
        morphTrace (fun d => if d = 1 then some [4] else none) (fun _ => false) 13 ∧
      (([1, 3] : List Nat).length = (natDigits 13).length ∧
        ([4, 3] : List Nat).length = (natDigits 13).length) :=
  ⟨by decide,
    morph_candidates_preserve_length (fun d => if d = 1 then some [4] else none)
      (fun _ => false) 13 (([1, 3], 2, [4, 3]) : MorphStep) (by decide)⟩

/-- Claim C5, counterexample: in the search from 209 with morph table 2 -> 3,
the very first candidate tested by the top-level call (depth bound D = 3) is
309, which differs from 209 exactly at position 0, the MOST significant
digit (the source reads `digits[-index]` and Python's `-0` is `0`).  Its
distance from the end of the string is 3 = L, which is not among the claimed
eligible distances 1 .. D - 1 = 1 .. 2, so the claim that every tested
candidate differs only at a position strictly less significant than D
positions from the end is false. -/
theorem morph_position_claim_counterexample :
    (([2, 0, 9], 3, [3, 0, 9]) : MorphStep) ∈
        morphTrace (fun d => if d = 2 then some [3] else none) (fun _ => false) 209 ∧
      diffPositions [2, 0, 9] [3, 0, 9] = [0] ∧
      ¬ (1 ≤ ([2, 0, 9] : List Nat).length - 0 ∧
          ([2, 0, 9] : List Nat).length - 0 ≤ 3 - 1) :=
  ⟨by decide, by decide, by decide⟩

/-- Claim C5 as amended: within one recursive morph-search call with depth
bound `D` over its current digit string, every candidate tested differs from
that string only at the single Python position `-i` for some loop index
`i < D` (and `i` below the string's length), where `-0` denotes the MOST
significant digit and `-i` for `i >= 1` the i-th digit from the right; the
digit written there is one of the morph table's permitted replacements for
the digit it replaces. -/
theorem morph_candidates_single_position :
    ∀ (table : Nat → Option (List Nat)) (test : Nat → Bool) (number : Nat)
      (e : MorphStep), e ∈ morphTrace table test number →
        ∃ i ms m, i < e.2.1 ∧ i < e.1.length ∧
          table (e.1.getD (pyIdx e.1.length i) 0) = some ms ∧ m ∈ ms ∧
          e.2.2 = e.1.set (pyIdx e.1.length i) m := by
  intro table test number e he
  obtain ⟨out, hout, _, helems⟩ :=
    morphRecT_sound table test ((natDigits number).length + 1)
      (natDigits number).length (natDigits number) (by omega)
  have h2 : morphTrace table test number = out.2 := by
    simp [morphTrace, hout]
  rw [h2] at he
  obtain ⟨_, _, hshape⟩ := helems e he
  exact hshape

/-- Witness for C5 (amended): the candidate 309 from the counterexample run is
indeed a single-position replacement at a loop index below the depth bound. -/
theorem morph_candidates_single_position_witness :
    (([2, 0, 9], 3, [3, 0, 9]) : MorphStep) ∈
        morphTrace (fun d => if d = 2 then some [3] else none) (fun _ => false) 209 ∧
      (∃ i ms m, i < 3 ∧ i < ([2, 0, 9] : List Nat).length ∧
        (fun d => if d = 2 then some [3] else none)
            (([2, 0, 9] : List Nat).getD (pyIdx ([2, 0, 9] : List Nat).length i) 0) =
          some ms ∧ m ∈ ms ∧
        ([3, 0, 9] : List Nat) =
          ([2, 0, 9] : List Nat).set (pyIdx ([2, 0, 9] : List Nat).length i) m) :=
  ⟨by decide,
    morph_candidates_single_position (fun d => if d = 2 then some [3] else none)
      (fun _ => false) 209 (([2, 0, 9], 3, [3, 0, 9]) : MorphStep) (by decide)⟩

end Img2prime
